import Mathlib

/-!
Verification of the flac-raster repository core against its specification.

The definitions below are shallow embeddings of the Python source:
  - quantization codec: converter.py, RasterFLACConverter._normalize_to_audio
    and RasterFLACConverter._denormalize_from_audio (elementwise on samples,
    exact rational arithmetic in place of numpy floats);
  - tile grid planner: spatial_encoder.py, SpatialFLACEncoder._calculate_tiles;
  - tile geolocation: spatial_encoder.py, SpatialFLACEncoder._tile_to_bbox;
  - encode loop offset bookkeeping: spatial_encoder.py,
    SpatialFLACEncoder.encode_spatial_flac (lines 208-218) and
    SpatialIndex (total_bytes);
  - byte range query engine: spatial_encoder.py, SpatialIndex.query_bbox and
    SpatialFLACStreamer.get_byte_ranges_for_bbox;
  - index loading fallback chain: spatial_encoder.py,
    SpatialFLACStreamer._load_spatial_index, with I/O abstracted as
    option-valued sources.
-/

namespace FlacRaster

/-! ## Quantization codec (converter.py) -/

/-- Truncation toward zero, which is how numpy astype converts floats to a
signed integer dtype. -/
def astype_trunc (x : ℚ) : ℤ := if 0 ≤ x then ⌊x⌋ else ⌈x⌉

/-- Wrapping of an integer into the representable range of a fixed-width
integer dtype, which is what numpy astype does to out-of-range values. -/
def wrap_to_range (lo hi t : ℤ) : ℤ := (t - lo) % (hi - lo + 1) + lo

/-- Round half to even, the rounding mode of np.round. -/
def np_round (x : ℚ) : ℤ :=
  if x - ⌊x⌋ < 1/2 then ⌊x⌋
  else if 1/2 < x - ⌊x⌋ then ⌊x⌋ + 1
  else if ⌊x⌋ % 2 = 0 then ⌊x⌋ else ⌊x⌋ + 1

/-- Integer branch of RasterFLACConverter._normalize_to_audio (converter.py
lines 65-75): min-max affine rescale of a sample to the range from -1 to 1;
a degenerate range maps every sample to zero. -/
def normalize_to_audio_int (v data_min data_max : ℚ) : ℚ :=
  if data_min < data_max then 2 * (v - data_min) / (data_max - data_min) - 1 else 0

/-- Full-scale factor used by converter.py for each bit depth: 32767 for
16-bit samples, 8388607 for 24-bit samples stored in int32. -/
def full_scale (bits : ℕ) : ℤ := if bits = 16 then 32767 else 8388607

/-- The complete integer quantization path of converter.py lines 77-83 for one
sample of an integer-typed raster: normalize, scale by the full-scale factor,
then astype to int16 (16-bit) or int32 (24-bit), which truncates toward zero
and wraps on overflow. -/
def quantize_sample (bits : ℕ) (v data_min data_max : ℚ) : ℤ :=
  if bits = 16 then
    wrap_to_range (-32768) 32767
      (astype_trunc (normalize_to_audio_int v data_min data_max * 32767))
  else if bits = 24 then
    wrap_to_range (-2147483648) 2147483647
      (astype_trunc (normalize_to_audio_int v data_min data_max * 8388607))
  else
    wrap_to_range (-2147483648) 2147483647
      (astype_trunc (normalize_to_audio_int v data_min data_max * 2147483647))

/-- RasterFLACConverter._denormalize_from_audio (converter.py lines 88-110)
for one sample and an integer original dtype whose representable range is
dtype_lo to dtype_hi: divide by the full-scale factor of the audio dtype,
invert the affine map, np.round, then astype to the original dtype. -/
def denormalize_from_audio_int (bits : ℕ) (q : ℤ) (data_min data_max : ℚ)
    (dtype_lo dtype_hi : ℤ) : ℤ :=
  wrap_to_range dtype_lo dtype_hi
    (np_round (((q : ℚ) / (full_scale bits : ℚ) + 1) / 2 * (data_max - data_min) + data_min))

/-- Float branch of RasterFLACConverter._normalize_to_audio (converter.py
lines 61-64): floating-point raster data is passed through unchanged. -/
def normalize_to_audio_float_converter (v : ℚ) : ℚ := v

/-- Float branch of SpatialFLACEncoder._normalize_to_audio
(spatial_encoder.py lines 239-241): floating-point raster data is clipped
to the range from -1 to 1, with no min-max rescale. -/
def normalize_to_audio_float_spatial (v : ℚ) : ℚ := max (-1) (min 1 v)

/-- Modelled from the spec (section 4.2): the min-max affine rescale that the
specification mandates for every input dtype, floats included. -/
def spec_min_max_rescale (v data_min data_max : ℚ) : ℚ :=
  2 * (v - data_min) / (data_max - data_min) - 1

/-! ### Facts about the numeric primitives -/

theorem wrap_to_range_eq_self (lo hi t : ℤ) (h1 : lo ≤ t) (h2 : t ≤ hi) :
    wrap_to_range lo hi t = t := by
  unfold wrap_to_range
  rw [Int.emod_eq_of_lt (by omega) (by omega)]
  omega

theorem astype_trunc_le_of_nonneg (x : ℚ) (h : 0 ≤ x) : (astype_trunc x : ℚ) ≤ x := by
  rw [astype_trunc, if_pos h]
  exact Int.floor_le x

theorem lt_astype_trunc_of_nonneg (x : ℚ) (h : 0 ≤ x) : x - 1 < (astype_trunc x : ℚ) := by
  rw [astype_trunc, if_pos h]
  have := Int.lt_floor_add_one x
  linarith

theorem le_astype_trunc_of_neg (x : ℚ) (h : x < 0) : x ≤ (astype_trunc x : ℚ) := by
  rw [astype_trunc, if_neg (not_le.mpr h)]
  exact Int.le_ceil x

theorem astype_trunc_lt_of_neg (x : ℚ) (h : x < 0) : (astype_trunc x : ℚ) < x + 1 := by
  rw [astype_trunc, if_neg (not_le.mpr h)]
  exact Int.ceil_lt_add_one x

theorem np_round_abs_le (x : ℚ) : |(np_round x : ℚ) - x| ≤ 1/2 := by
  have hf1 : ((⌊x⌋ : ℤ) : ℚ) ≤ x := Int.floor_le x
  have hf2 : x < ((⌊x⌋ : ℤ) : ℚ) + 1 := Int.lt_floor_add_one x
  rw [np_round]
  split_ifs with h1 h2 h3 <;> rw [abs_le] <;> constructor <;> push_cast <;> linarith

/-- Claim C1 (amended): for every integer raster value v with
data_min: less-or-equal v less-or-equal data_max, and each supported bit depth
(16-bit with full scale 32767, 24-bit with full scale 8388607), dequantizing
the quantized sample recovers v to within the truncating quantization error
bound (data_max - data_min) / (2 * full_scale) plus the half unit added by the
final round to the nearest integer of the original dtype. -/
theorem C1_quantization_roundtrip_amended
    (bits : ℕ) (hbits : bits = 16 ∨ bits = 24)
    (data_min data_max v dtype_lo dtype_hi : ℤ)
    (hmm : data_min < data_max) (hlo : data_min ≤ v) (hhi : v ≤ data_max)
    (hdlo : dtype_lo ≤ data_min) (hdhi : data_max ≤ dtype_hi) :
    |(denormalize_from_audio_int bits
        (quantize_sample bits (v : ℚ) (data_min : ℚ) (data_max : ℚ))
        (data_min : ℚ) (data_max : ℚ) dtype_lo dtype_hi : ℚ) - (v : ℚ)|
      ≤ ((data_max : ℚ) - (data_min : ℚ)) / (2 * ((full_scale bits : ℤ) : ℚ)) + 1/2 := by
  have hfsval : full_scale bits = 32767 ∨ full_scale bits = 8388607 := by
    rcases hbits with h | h <;> simp [full_scale, h]
  set fsQ : ℚ := ((full_scale bits : ℤ) : ℚ) with hfsQ
  have hfs1 : (1 : ℚ) ≤ fsQ := by
    rcases hfsval with h | h <;> rw [hfsQ, h] <;> norm_num
  have hfs0 : (0 : ℚ) < fsQ := lt_of_lt_of_le one_pos hfs1
  set R : ℚ := (data_max : ℚ) - (data_min : ℚ) with hRdef
  have hmmQ : (data_min : ℚ) < (data_max : ℚ) := by exact_mod_cast hmm
  have hR0 : 0 < R := by rw [hRdef]; linarith
  have hloQ : (data_min : ℚ) ≤ (v : ℚ) := by exact_mod_cast hlo
  have hhiQ : (v : ℚ) ≤ (data_max : ℚ) := by exact_mod_cast hhi
  set n : ℚ := 2 * ((v : ℚ) - (data_min : ℚ)) / R - 1 with hndef
  have hnorm : normalize_to_audio_int (v : ℚ) (data_min : ℚ) (data_max : ℚ) = n := by
    rw [normalize_to_audio_int, if_pos hmmQ]
  have hn_lb : -1 ≤ n := by
    have h1 : 0 ≤ 2 * ((v : ℚ) - (data_min : ℚ)) / R :=
      div_nonneg (by linarith) hR0.le
    rw [hndef]; linarith
  have hn_ub : n ≤ 1 := by
    have h1 : 2 * ((v : ℚ) - (data_min : ℚ)) / R ≤ 2 := by
      rw [div_le_iff₀ hR0]; rw [hRdef]; linarith
    rw [hndef]; linarith
  set qZ : ℤ := astype_trunc (n * fsQ) with hqdef
  -- bounds on the truncated sample and the position of the inverted value
  set d : ℚ := R / (2 * fsQ) with hddef
  have hd0 : 0 ≤ d := by
    rw [hddef]; exact div_nonneg hR0.le (by linarith)
  have hd_half : d ≤ R / 2 := by
    rw [hddef]
    exact div_le_div_of_nonneg_left hR0.le (by norm_num) (by linarith)
  set pre : ℚ := (((qZ : ℤ) : ℚ) / fsQ + 1) / 2 * ((data_max : ℚ) - (data_min : ℚ))
      + (data_min : ℚ) with hpredef
  have hkey : pre = (v : ℚ) + ((qZ : ℚ) - n * fsQ) * d := by
    rw [hpredef, hndef, hddef]
    field_simp
    ring
  set r : ℤ := np_round pre with hrdef
  have hrabs : |(r : ℚ) - pre| ≤ 1/2 := np_round_abs_le pre
  clear_value fsQ R n qZ d pre r
  have hr1 : -(1/2) ≤ (r : ℚ) - pre := (abs_le.mp hrabs).1
  have hr2 : (r : ℚ) - pre ≤ 1/2 := (abs_le.mp hrabs).2
  have hmain : (v : ℚ) - d ≤ pre ∧ pre ≤ (v : ℚ) + d ∧ data_min ≤ r ∧ r ≤ data_max := by
    by_cases hnn : 0 ≤ n * fsQ
    · have ht1 : (qZ : ℚ) ≤ n * fsQ := by
        rw [hqdef]; exact astype_trunc_le_of_nonneg _ hnn
      have ht2 : n * fsQ - 1 < (qZ : ℚ) := by
        rw [hqdef]; exact lt_astype_trunc_of_nonneg _ hnn
      have heps1 : (qZ : ℚ) - n * fsQ ≤ 0 := by linarith
      have heps2 : -1 ≤ (qZ : ℚ) - n * fsQ := by linarith
      have hn0 : 0 ≤ n := by
        have h := div_nonneg hnn hfs0.le
        rwa [mul_div_cancel_right₀ _ hfs0.ne'] at h
      have hv2 : R ≤ 2 * ((v : ℚ) - (data_min : ℚ)) := by
        have h1 : 1 ≤ 2 * ((v : ℚ) - (data_min : ℚ)) / R := by rw [hndef] at hn0; linarith
        rwa [le_div_iff₀ hR0, one_mul] at h1
      have hp1 : pre ≤ (v : ℚ) := by
        have := mul_nonpos_of_nonpos_of_nonneg heps1 hd0
        rw [hkey]; linarith
      have hp2 : (v : ℚ) - d ≤ pre := by
        have h := mul_le_mul_of_nonneg_right heps2 hd0
        rw [hkey]; linarith
      have hrv : r ≤ v := by
        have h : (r : ℚ) < (v : ℚ) + 1 := by linarith
        exact_mod_cast Int.lt_add_one_iff.mp (by exact_mod_cast h)
      have hpm : (data_min : ℚ) ≤ pre := by
        linarith
      have hrm : data_min ≤ r := by
        have h : ((data_min : ℤ) : ℚ) - 1 < (r : ℚ) := by linarith
        have h2 : data_min - 1 < r := by exact_mod_cast h
        omega
      exact ⟨hp2, by linarith, hrm, le_trans hrv hhi⟩
    · push_neg at hnn
      have ht1 : n * fsQ ≤ (qZ : ℚ) := by
        rw [hqdef]; exact le_astype_trunc_of_neg _ hnn
      have ht2 : (qZ : ℚ) < n * fsQ + 1 := by
        rw [hqdef]; exact astype_trunc_lt_of_neg _ hnn
      have heps1 : 0 ≤ (qZ : ℚ) - n * fsQ := by linarith
      have heps2 : (qZ : ℚ) - n * fsQ ≤ 1 := by linarith
      have hnneg : n < 0 := by
        by_contra hcon
        push_neg at hcon
        exact absurd (mul_nonneg hcon hfs0.le) (not_le.mpr hnn)
      have hv2 : 2 * ((v : ℚ) - (data_min : ℚ)) < R := by
        have h1 : 2 * ((v : ℚ) - (data_min : ℚ)) / R < 1 := by rw [hndef] at hnneg; linarith
        rwa [div_lt_one hR0] at h1
      have hp1 : (v : ℚ) ≤ pre := by
        have := mul_nonneg heps1 hd0
        rw [hkey]; linarith
      have hp2 : pre ≤ (v : ℚ) + d := by
        have h := mul_le_mul_of_nonneg_right heps2 hd0
        rw [hkey]; linarith
      have hrv : v ≤ r := by
        have h : ((v : ℤ) : ℚ) - 1 < (r : ℚ) := by linarith
        have h2 : v - 1 < r := by exact_mod_cast h
        omega
      have hpM : pre < (data_max : ℚ) := by
        linarith
      have hrM : r ≤ data_max := by
        have h : (r : ℚ) < ((data_max : ℤ) : ℚ) + 1 := by linarith
        have h2 : r < data_max + 1 := by exact_mod_cast h
        omega
      exact ⟨by linarith, hp2, le_trans hlo hrv, hrM⟩
  obtain ⟨hm1, hm2, hm3, hm4⟩ := hmain
  -- the quantizer returns the truncated sample unwrapped
  have hqb1 : -fsQ ≤ (qZ : ℚ) := by
    by_cases hnn : 0 ≤ n * fsQ
    · have h := lt_astype_trunc_of_nonneg _ hnn
      rw [← hqdef] at h
      linarith
    · push_neg at hnn
      have h := le_astype_trunc_of_neg _ hnn
      rw [← hqdef] at h
      have hb := mul_le_mul_of_nonneg_right hn_lb hfs0.le
      linarith
  have hqb2 : (qZ : ℚ) ≤ fsQ := by
    by_cases hnn : 0 ≤ n * fsQ
    · have h := astype_trunc_le_of_nonneg _ hnn
      rw [← hqdef] at h
      have hb := mul_le_mul_of_nonneg_right hn_ub hfs0.le
      linarith
    · push_neg at hnn
      have h := astype_trunc_lt_of_neg _ hnn
      rw [← hqdef] at h
      linarith
  rw [hfsQ] at hqb1 hqb2
  have hqZ1 : -(full_scale bits) ≤ qZ := by exact_mod_cast hqb1
  have hqZ2 : qZ ≤ full_scale bits := by exact_mod_cast hqb2
  have hquant : quantize_sample bits (v : ℚ) (data_min : ℚ) (data_max : ℚ) = qZ := by
    rcases hbits with h | h <;> subst h
    · have hfseq : full_scale 16 = 32767 := rfl
      rw [hfseq] at hqZ1 hqZ2
      have e1 : quantize_sample 16 (v : ℚ) (data_min : ℚ) (data_max : ℚ)
          = wrap_to_range (-32768) 32767 (astype_trunc
              (normalize_to_audio_int (v : ℚ) (data_min : ℚ) (data_max : ℚ) * 32767)) := by
        simp [quantize_sample]
      have e2 : n * (32767 : ℚ) = n * fsQ := by
        rw [hfsQ, hfseq]; norm_num
      rw [e1, hnorm, e2, ← hqdef, wrap_to_range_eq_self _ _ _ (by omega) (by omega)]
    · have hfseq : full_scale 24 = 8388607 := rfl
      rw [hfseq] at hqZ1 hqZ2
      have e1 : quantize_sample 24 (v : ℚ) (data_min : ℚ) (data_max : ℚ)
          = wrap_to_range (-2147483648) 2147483647 (astype_trunc
              (normalize_to_audio_int (v : ℚ) (data_min : ℚ) (data_max : ℚ) * 8388607)) := by
        simp [quantize_sample]
      have e2 : n * (8388607 : ℚ) = n * fsQ := by
        rw [hfsQ, hfseq]; norm_num
      rw [e1, hnorm, e2, ← hqdef, wrap_to_range_eq_self _ _ _ (by omega) (by omega)]
  have hdenorm : denormalize_from_audio_int bits qZ (data_min : ℚ) (data_max : ℚ)
      dtype_lo dtype_hi = r := by
    rw [denormalize_from_audio_int, ← hfsQ, ← hpredef, ← hrdef,
      wrap_to_range_eq_self _ _ _ (by omega) (by omega)]
  rw [hquant, hdenorm, abs_le]
  constructor <;> linarith

/-- Witness for C1 (amended) at bits 16, data range 0 to 10, value 7, and the
uint16 dtype range. -/
theorem C1_quantization_roundtrip_amended_witness :
    |(denormalize_from_audio_int 16
        (quantize_sample 16 ((7 : ℤ) : ℚ) ((0 : ℤ) : ℚ) ((10 : ℤ) : ℚ))
        ((0 : ℤ) : ℚ) ((10 : ℤ) : ℚ) 0 65535 : ℚ) - ((7 : ℤ) : ℚ)|
      ≤ (((10 : ℤ) : ℚ) - ((0 : ℤ) : ℚ)) / (2 * ((full_scale 16 : ℤ) : ℚ)) + 1/2 :=
  C1_quantization_roundtrip_amended 16 (Or.inl rfl) 0 10 7 0 65535
    (by decide) (by decide) (by decide) (by decide) (by decide)

/-- Counterexample to claim C1 as stated: with 16-bit samples, data_min 0,
data_max 40000 (a uint16 raster) and v equal 19997, the round trip through the
truncating quantizer and rounding dequantizer of the code return 19998, an error
of 1, which exceeds the claimed bound (data_max - data_min) / (2 * 32767). -/
theorem C1_quantization_roundtrip_cex :
    ¬ (|(denormalize_from_audio_int 16
          (quantize_sample 16 ((19997 : ℤ) : ℚ) ((0 : ℤ) : ℚ) ((40000 : ℤ) : ℚ))
          ((0 : ℤ) : ℚ) ((40000 : ℤ) : ℚ) 0 65535 : ℚ) - ((19997 : ℤ) : ℚ)|
        ≤ (((40000 : ℤ) : ℚ) - ((0 : ℤ) : ℚ)) / (2 * ((full_scale 16 : ℤ) : ℚ))) := by
  have h1 : normalize_to_audio_int ((19997 : ℤ) : ℚ) ((0 : ℤ) : ℚ) ((40000 : ℤ) : ℚ)
      = -3/20000 := by
    rw [normalize_to_audio_int, if_pos (by norm_num)]
    norm_num
  have h2 : astype_trunc ((-3/20000 : ℚ) * 32767) = -4 := by
    rw [astype_trunc, if_neg (by norm_num)]
    rw [show ((-3/20000 : ℚ) * 32767) = -(98301/20000) by norm_num, Int.ceil_neg]
    norm_num
  have h3 : quantize_sample 16 ((19997 : ℤ) : ℚ) ((0 : ℤ) : ℚ) ((40000 : ℤ) : ℚ) = -4 := by
    simp only [quantize_sample, h1, h2, if_pos]
    decide
  have hx : (((-4 : ℤ) : ℚ) / ((full_scale 16 : ℤ) : ℚ) + 1) / 2
      * (((40000 : ℤ) : ℚ) - ((0 : ℤ) : ℚ)) + ((0 : ℤ) : ℚ) = 655260000/32767 := by
    norm_num [full_scale]
  have hfl : ⌊(655260000/32767 : ℚ)⌋ = 19997 := by norm_num
  have hnp : np_round (655260000/32767 : ℚ) = 19998 := by
    rw [np_round, hfl]
    norm_num
  have h5 : denormalize_from_audio_int 16 (-4) ((0 : ℤ) : ℚ) ((40000 : ℤ) : ℚ) 0 65535
      = 19998 := by
    rw [denormalize_from_audio_int, hx, hnp]
    decide
  rw [h3, h5]
  push_cast
  norm_num [full_scale]

/-- Claim C6, evaluated at the failing input: for a float32 raster value 5
with data_min 0 and data_max 10, the converter passes the value through
unscaled (returns 5) and the spatial encoder clips it to 1, while the
specified min-max rescale would return 0; so quantization does not always
apply the min-max affine rescale for floating-point inputs. -/
theorem C6_float_rescale_bug :
    normalize_to_audio_float_converter 5 = 5 ∧
    normalize_to_audio_float_spatial 5 = 1 ∧
    spec_min_max_rescale 5 0 10 = 0 ∧
    normalize_to_audio_float_converter 5 ≠ spec_min_max_rescale 5 0 10 := by
  refine ⟨rfl, ?_, ?_, ?_⟩
  · norm_num [normalize_to_audio_float_spatial]
  · norm_num [spec_min_max_rescale]
  · norm_num [normalize_to_audio_float_converter, spec_min_max_rescale]

/-! ## Spatial data model (spatial_encoder.py) -/

/-- Geographic bounding box, stored in the source as the tuple
(xmin, ymin, xmax, ymax). -/
structure Bbox where
  xmin : ℚ
  ymin : ℚ
  xmax : ℚ
  ymax : ℚ
deriving DecidableEq

/-- Rasterio window: pixel-space rectangle of a tile. The source constructs
Window(col_off, row_off, width, height). -/
structure Window where
  col_off : ℕ
  row_off : ℕ
  width : ℕ
  height : ℕ
deriving DecidableEq

/-- SpatialFrame (spatial_encoder.py lines 21-30): the metadata of one tile. -/
structure SpatialFrame where
  frame_id : ℕ
  bbox : Bbox
  window : Window
  byte_offset : ℤ
  byte_size : ℤ
deriving DecidableEq

/-- SpatialIndex total_bytes (spatial_encoder.py line 55): the sum of the
byte_size of all frames. -/
def total_bytes (frames : List SpatialFrame) : ℤ :=
  (frames.map SpatialFrame.byte_size).sum

/-- The tile write loop of SpatialFLACEncoder.encode_spatial_flac
(spatial_encoder.py lines 173-218), restricted to its offset bookkeeping:
each tile is appended with byte_offset equal to the running bytes_written,
which then grows by the payload length; frame ids count up from zero. Each
input entry carries a tile window, its bbox and the length of its encoded
FLAC payload. -/
def encode_loop (i : ℕ) (bytes_written : ℤ) :
    List (Window × Bbox × ℤ) → List SpatialFrame
  | [] => []
  | (w, bb, sz) :: rest =>
    ⟨i, bb, w, bytes_written, sz⟩ :: encode_loop (i + 1) (bytes_written + sz) rest

/-- Frames produced by one run of encode_spatial_flac: the loop starts with
frame id 0 and bytes_written 0 (spatial_encoder.py lines 169-170). -/
def encode_spatial_flac_frames (tiles : List (Window × Bbox × ℤ)) : List SpatialFrame :=
  encode_loop 0 0 tiles

theorem encode_loop_length (i : ℕ) (bw : ℤ) (tiles : List (Window × Bbox × ℤ)) :
    (encode_loop i bw tiles).length = tiles.length := by
  induction tiles generalizing i bw with
  | nil => rfl
  | cons t rest ih =>
    obtain ⟨w, bb, sz⟩ := t
    simp [encode_loop, ih]

theorem encode_loop_map_size (i : ℕ) (bw : ℤ) (tiles : List (Window × Bbox × ℤ)) :
    (encode_loop i bw tiles).map SpatialFrame.byte_size
      = tiles.map (fun t => t.2.2) := by
  induction tiles generalizing i bw with
  | nil => rfl
  | cons t rest ih =>
    obtain ⟨w, bb, sz⟩ := t
    simp [encode_loop, ih]

theorem encode_loop_offset (tiles : List (Window × Bbox × ℤ)) (i : ℕ) (bw : ℤ)
    (k : ℕ) (hk : k < (encode_loop i bw tiles).length) :
    ((encode_loop i bw tiles).get ⟨k, hk⟩).byte_offset
      = bw + (((encode_loop i bw tiles).take k).map SpatialFrame.byte_size).sum := by
  induction tiles generalizing i bw k with
  | nil => simp [encode_loop] at hk
  | cons t rest ih =>
    obtain ⟨w, bb, sz⟩ := t
    cases k with
    | zero => simp [encode_loop]
    | succ k =>
      have hk2 : k < (encode_loop (i + 1) (bw + sz) rest).length := by
        simpa [encode_loop] using hk
      have := ih (i + 1) (bw + sz) k hk2
      simp only [encode_loop, List.get_cons_succ, List.take_succ_cons, List.map_cons,
        List.sum_cons] at this ⊢
      rw [this]
      ring

/-- Claim C2: after encoding, the byte_offset of every frame equals the sum of the
byte_size of all earlier frames (tiles are packed back to back with no gaps),
and the total_bytes of the index equals the sum of byte_size over all frames,
which is the sum of all payload lengths. -/
theorem C2_offsets_cumulative (tiles : List (Window × Bbox × ℤ)) (k : ℕ)
    (hk : k < (encode_spatial_flac_frames tiles).length) :
    ((encode_spatial_flac_frames tiles).get ⟨k, hk⟩).byte_offset
      = (((encode_spatial_flac_frames tiles).take k).map SpatialFrame.byte_size).sum
    ∧ total_bytes (encode_spatial_flac_frames tiles)
      = (tiles.map (fun t => t.2.2)).sum := by
  constructor
  · have := encode_loop_offset tiles 0 0 k hk
    simpa [encode_spatial_flac_frames] using this
  · rw [total_bytes, encode_spatial_flac_frames, encode_loop_map_size]

/-- Witness for C2 on a concrete three-tile encode. -/
theorem C2_offsets_cumulative_witness :
    ((encode_spatial_flac_frames
        [(⟨0, 0, 2, 2⟩, ⟨0, 0, 1, 1⟩, 11), (⟨2, 0, 2, 2⟩, ⟨1, 0, 2, 1⟩, 7),
         (⟨0, 2, 2, 2⟩, ⟨0, 1, 1, 2⟩, 5)]).get ⟨2, by decide⟩).byte_offset
      = (((encode_spatial_flac_frames
        [(⟨0, 0, 2, 2⟩, ⟨0, 0, 1, 1⟩, 11), (⟨2, 0, 2, 2⟩, ⟨1, 0, 2, 1⟩, 7),
         (⟨0, 2, 2, 2⟩, ⟨0, 1, 1, 2⟩, 5)]).take 2).map SpatialFrame.byte_size).sum
    ∧ total_bytes (encode_spatial_flac_frames
        [(⟨0, 0, 2, 2⟩, ⟨0, 0, 1, 1⟩, 11), (⟨2, 0, 2, 2⟩, ⟨1, 0, 2, 1⟩, 7),
         (⟨0, 2, 2, 2⟩, ⟨0, 1, 1, 2⟩, 5)])
      = ([(⟨0, 0, 2, 2⟩, ⟨0, 0, 1, 1⟩, 11), (⟨2, 0, 2, 2⟩, ⟨1, 0, 2, 1⟩, 7),
         ((⟨0, 2, 2, 2⟩ : Window), (⟨0, 1, 1, 2⟩ : Bbox), (5 : ℤ))].map
          (fun t => t.2.2)).sum :=
  C2_offsets_cumulative _ 2 (by decide)

/-! ## Byte range query engine (spatial_encoder.py) -/

/-- SpatialIndex.query_bbox (spatial_encoder.py lines 57-70): keep the frames
whose bbox intersects the query box under the four strict inequalities of the
open intersection test of the source. -/
def query_bbox (bbox : Bbox) (frames : List SpatialFrame) : List SpatialFrame :=
  frames.filter (fun frame =>
    decide (bbox.xmin < frame.bbox.xmax) && decide (bbox.xmax > frame.bbox.xmin) &&
    decide (bbox.ymin < frame.bbox.ymax) && decide (bbox.ymax > frame.bbox.ymin))

/-- Ascending lexicographic comparison of (start, end) pairs: the order in
which the Python list.sort() method arranges 2-tuples of integers. -/
def range_le (a b : ℤ × ℤ) : Prop := a.1 < b.1 ∨ (a.1 = b.1 ∧ a.2 ≤ b.2)

instance : DecidableRel range_le := fun a b => by
  unfold range_le; infer_instance

instance : IsTotal (ℤ × ℤ) range_le := by
  constructor
  intro a b
  unfold range_le
  omega

instance : IsTrans (ℤ × ℤ) range_le := by
  constructor
  intro a b c hab hbc
  unfold range_le at hab hbc ⊢
  omega

/-- The ranges.sort() call of get_byte_ranges_for_bbox (spatial_encoder.py
line 475): sort the (start, end) pairs lexicographically ascending. -/
def sort_ranges (rs : List (ℤ × ℤ)) : List (ℤ × ℤ) := rs.insertionSort range_le

/-- One iteration of the merge loop of get_byte_ranges_for_bbox
(spatial_encoder.py lines 476-481), with the merged list kept in reverse so
its head is the most recently appended range: a range is merged into the last
range when its start is at most that range's end plus one, else appended. -/
def merge_step (acc : List (ℤ × ℤ)) (r : ℤ × ℤ) : List (ℤ × ℤ) :=
  match acc with
  | [] => [r]
  | (s0, e0) :: tail =>
    if r.1 ≤ e0 + 1 then (s0, max e0 r.2) :: tail else r :: (s0, e0) :: tail

/-- The full merge loop over the sorted ranges, returned in insertion order. -/
def merge_ranges (rs : List (ℤ × ℤ)) : List (ℤ × ℤ) :=
  (rs.foldl merge_step []).reverse

/-- SpatialFLACStreamer.get_byte_ranges_for_bbox (spatial_encoder.py lines
464-484): collect the inclusive byte range of every intersecting frame with
positive byte_size, sort by offset, and merge adjacent or overlapping
ranges. -/
def get_byte_ranges_for_bbox (bbox : Bbox) (frames : List SpatialFrame) : List (ℤ × ℤ) :=
  let intersecting := query_bbox bbox frames
  let ranges := (intersecting.filter (fun f => decide (f.byte_size > 0))).map
    (fun f => (f.byte_offset, f.byte_offset + f.byte_size - 1))
  merge_ranges (sort_ranges ranges)

/-! ### Invariants of the merge loop -/

theorem merge_foldl_invariant :
    ∀ (rest acc : List (ℤ × ℤ)),
      List.Pairwise (fun a b => a.1 ≤ b.1) rest →
      (∀ x ∈ rest, x.1 ≤ x.2) →
      (∀ x ∈ acc, x.1 ≤ x.2) →
      List.Chain' (fun a b => b.2 + 2 ≤ a.1) acc →
      (∀ y ∈ rest, ∀ h ∈ acc.head?, h.1 ≤ y.1) →
      (∀ x ∈ rest.foldl merge_step acc, x.1 ≤ x.2) ∧
      List.Chain' (fun a b => b.2 + 2 ≤ a.1) (rest.foldl merge_step acc) := by
  intro rest
  induction rest with
  | nil =>
    intro acc _ _ hacc hchain _
    exact ⟨hacc, hchain⟩
  | cons r rest ih =>
    intro acc hpw hse hacc hchain hhead
    have hpw2 : List.Pairwise (fun a b : ℤ × ℤ => a.1 ≤ b.1) rest :=
      (List.pairwise_cons.mp hpw).2
    have hrall : ∀ y ∈ rest, r.1 ≤ y.1 := (List.pairwise_cons.mp hpw).1
    have hse2 : ∀ x ∈ rest, x.1 ≤ x.2 := fun x hx => hse x (List.mem_cons_of_mem r hx)
    have hrse : r.1 ≤ r.2 := hse r (List.mem_cons_self r rest)
    rw [List.foldl_cons]
    cases acc with
    | nil =>
      apply ih (merge_step [] r) hpw2 hse2
      · intro x hx
        simp only [merge_step, List.mem_singleton] at hx
        subst hx
        exact hrse
      · simp [merge_step]
      · intro y hy h hh
        simp only [merge_step, List.head?_cons, Option.mem_some_iff] at hh
        subst hh
        exact hrall y hy
    | cons p tail =>
      obtain ⟨s0, e0⟩ := p
      have hs0 : s0 ≤ e0 := hacc (s0, e0) (List.mem_cons_self _ _)
      have hhead0 : s0 ≤ r.1 := hhead r (List.mem_cons_self _ _) (s0, e0) rfl
      by_cases hc : r.1 ≤ e0 + 1
      · have hms : merge_step ((s0, e0) :: tail) r = (s0, max e0 r.2) :: tail := by
          simp [merge_step, hc]
        rw [hms]
        apply ih _ hpw2 hse2
        · intro x hx
          rcases List.mem_cons.mp hx with rfl | hx2
          · simp only
            exact le_trans hs0 (le_max_left _ _)
          · exact hacc x (List.mem_cons_of_mem _ hx2)
        · rcases List.chain'_cons'.mp hchain with ⟨hrel, htail⟩
          exact List.chain'_cons'.mpr ⟨hrel, htail⟩
        · intro y hy h hh
          simp only [List.head?_cons, Option.mem_some_iff] at hh
          subst hh
          exact le_trans hhead0 (hrall y hy)
      · have hms : merge_step ((s0, e0) :: tail) r = r :: (s0, e0) :: tail := by
          simp [merge_step, hc]
        rw [hms]
        apply ih _ hpw2 hse2
        · intro x hx
          rcases List.mem_cons.mp hx with rfl | hx2
          · exact hrse
          · exact hacc x hx2
        · refine List.chain'_cons'.mpr ⟨?_, hchain⟩
          intro h hh
          simp only [List.head?_cons, Option.mem_some_iff] at hh
          subst hh
          omega
        · intro y hy h hh
          simp only [List.head?_cons, Option.mem_some_iff] at hh
          subst hh
          exact hrall y hy

theorem chain_gap_pairwise (l : List (ℤ × ℤ)) (hse : ∀ x ∈ l, x.1 ≤ x.2)
    (hch : List.Chain' (fun a b => a.2 + 2 ≤ b.1) l) :
    List.Pairwise (fun a b => a.2 + 2 ≤ b.1) l := by
  induction l with
  | nil => exact List.Pairwise.nil
  | cons a l ih =>
    have hpw := ih (fun x hx => hse x (List.mem_cons_of_mem a hx)) hch.tail
    refine List.pairwise_cons.mpr ⟨?_, hpw⟩
    intro c hc
    cases l with
    | nil => cases hc
    | cons b l2 =>
      have hab : a.2 + 2 ≤ b.1 := (List.chain'_cons.mp hch).1
      rcases List.mem_cons.mp hc with rfl | hc2
      · exact hab
      · have hbc : b.2 + 2 ≤ c.1 := (List.pairwise_cons.mp hpw).1 c hc2
        have hb : b.1 ≤ b.2 := hse b (List.mem_cons_of_mem a (List.mem_cons_self b l2))
        omega

theorem get_byte_ranges_wf (bbox : Bbox) (frames : List SpatialFrame) :
    (∀ x ∈ get_byte_ranges_for_bbox bbox frames, x.1 ≤ x.2) ∧
    List.Chain' (fun a b => a.2 + 2 ≤ b.1) (get_byte_ranges_for_bbox bbox frames) := by
  rw [get_byte_ranges_for_bbox]
  set ranges := ((query_bbox bbox frames).filter (fun f => decide (f.byte_size > 0))).map
    (fun f => (f.byte_offset, f.byte_offset + f.byte_size - 1)) with hrangesdef
  have hse : ∀ x ∈ sort_ranges ranges, x.1 ≤ x.2 := by
    intro x hx
    rw [sort_ranges, List.mem_insertionSort] at hx
    rw [hrangesdef] at hx
    obtain ⟨f, hf, rfl⟩ := List.mem_map.mp hx
    have hsz : f.byte_size > 0 := by
      have := (List.mem_filter.mp hf).2
      simpa using this
    simp only
    omega
  have hsorted : List.Pairwise (fun a b : ℤ × ℤ => a.1 ≤ b.1) (sort_ranges ranges) := by
    have h := List.sorted_insertionSort range_le ranges
    exact h.imp (fun hab => by unfold range_le at hab; omega)
  obtain ⟨h1, h2⟩ := merge_foldl_invariant (sort_ranges ranges) [] hsorted hse
    (by intro x hx; cases hx) List.chain'_nil (by intro y hy h hh; cases hh)
  refine ⟨?_, ?_⟩
  · intro x hx
    rw [merge_ranges, List.mem_reverse] at hx
    exact h1 x hx
  · rw [merge_ranges]
    rw [List.chain'_reverse]
    exact h2

/-- Claim C5: for every query bbox and every index, the merged range list is
sorted strictly ascending by start, pairwise disjoint, and no two consecutive
ranges are adjacent: each range's start exceeds the previous range's end by at
least 2. -/
theorem C5_merge_invariant (bbox : Bbox) (frames : List SpatialFrame) :
    List.Chain' (fun a b => a.2 + 2 ≤ b.1) (get_byte_ranges_for_bbox bbox frames) ∧
    List.Pairwise (fun a b => a.2 < b.1) (get_byte_ranges_for_bbox bbox frames) ∧
    List.Pairwise (fun a b => a.1 < b.1) (get_byte_ranges_for_bbox bbox frames) := by
  obtain ⟨hse, hch⟩ := get_byte_ranges_wf bbox frames
  have hpw := chain_gap_pairwise _ hse hch
  refine ⟨hch, hpw.imp (fun hab => by omega), ?_⟩
  exact List.Pairwise.imp_of_mem
    (fun ha hb hab => by have := hse _ ha; omega) hpw

/-! ### The ranges of a freshly encoded index merge to a single span -/

theorem encode_loop_mem (tiles : List (Window × Bbox × ℤ)) (i : ℕ) (bw : ℤ)
    (f : SpatialFrame) (hf : f ∈ encode_loop i bw tiles) :
    ∃ t ∈ tiles, f.bbox = t.2.1 ∧ f.byte_size = t.2.2 := by
  induction tiles generalizing i bw with
  | nil => cases hf
  | cons t rest ih =>
    obtain ⟨w, bb, sz⟩ := t
    simp only [encode_loop] at hf
    rcases List.mem_cons.mp hf with rfl | hf2
    · exact ⟨(w, bb, sz), List.mem_cons_self _ _, rfl, rfl⟩
    · obtain ⟨t2, ht2, h⟩ := ih (i + 1) (bw + sz) hf2
      exact ⟨t2, List.mem_cons_of_mem _ ht2, h⟩

theorem encode_loop_offset_ge (tiles : List (Window × Bbox × ℤ)) (i : ℕ) (bw : ℤ)
    (hpos : ∀ t ∈ tiles, 0 ≤ t.2.2)
    (f : SpatialFrame) (hf : f ∈ encode_loop i bw tiles) : bw ≤ f.byte_offset := by
  induction tiles generalizing i bw with
  | nil => cases hf
  | cons t rest ih =>
    obtain ⟨w, bb, sz⟩ := t
    have hsz : (0 : ℤ) ≤ sz := hpos _ (List.mem_cons_self _ _)
    simp only [encode_loop] at hf
    rcases List.mem_cons.mp hf with rfl | hf2
    · simp
    · have := ih (i + 1) (bw + sz) (fun t ht => hpos t (List.mem_cons_of_mem _ ht)) hf2
      omega

theorem encode_ranges_pairwise_lt (tiles : List (Window × Bbox × ℤ)) :
    ∀ (i : ℕ) (bw : ℤ), (∀ t ∈ tiles, 0 < t.2.2) →
    List.Pairwise (fun a b : ℤ × ℤ => a.1 < b.1)
      ((encode_loop i bw tiles).map
        (fun f => (f.byte_offset, f.byte_offset + f.byte_size - 1))) := by
  induction tiles with
  | nil => intro i bw _; simp [encode_loop]
  | cons t rest ih =>
    intro i bw hpos
    obtain ⟨w, bb, sz⟩ := t
    have hsz : (0 : ℤ) < sz := hpos _ (List.mem_cons_self _ _)
    have hpos2 : ∀ t ∈ rest, (0 : ℤ) < t.2.2 :=
      fun t ht => hpos t (List.mem_cons_of_mem _ ht)
    simp only [encode_loop, List.map_cons]
    refine List.pairwise_cons.mpr ⟨?_, ih (i + 1) (bw + sz) hpos2⟩
    intro y hy
    obtain ⟨f, hf, rfl⟩ := List.mem_map.mp hy
    have := encode_loop_offset_ge rest (i + 1) (bw + sz)
      (fun t ht => (hpos2 t ht).le) f hf
    simp only
    omega

theorem merge_cumulative (tiles : List (Window × Bbox × ℤ)) :
    ∀ (i : ℕ) (b0 cur : ℤ), (∀ t ∈ tiles, 0 < t.2.2) →
    List.foldl merge_step [(b0, cur)]
        ((encode_loop i (cur + 1) tiles).map
          (fun f => (f.byte_offset, f.byte_offset + f.byte_size - 1)))
      = [(b0, cur + (tiles.map (fun t => t.2.2)).sum)] := by
  induction tiles with
  | nil => intro i b0 cur _; simp [encode_loop]
  | cons t rest ih =>
    intro i b0 cur hpos
    obtain ⟨w, bb, sz⟩ := t
    have hsz : (0 : ℤ) < sz := hpos _ (List.mem_cons_self _ _)
    have hpos2 : ∀ t ∈ rest, (0 : ℤ) < t.2.2 :=
      fun t ht => hpos t (List.mem_cons_of_mem _ ht)
    simp only [encode_loop, List.map_cons, List.foldl_cons]
    have hstep : merge_step [(b0, cur)] (cur + 1, cur + 1 + sz - 1) = [(b0, cur + sz)] := by
      simp only [merge_step]
      rw [if_pos (by omega : (cur + 1 : ℤ) ≤ cur + 1)]
      have hmax : max cur (cur + 1 + sz - 1) = cur + sz := by
        rw [max_eq_right (by omega)]
        omega
      rw [hmax]
    rw [hstep, show cur + 1 + sz = (cur + sz) + 1 by ring, ih (i + 1) b0 (cur + sz) hpos2,
      List.sum_cons, add_assoc]

/-- Claim C3: for an index built by the encoder (offsets the running sums of
the sizes, at least one tile, every tile with positive payload size, every
tile bbox nonempty and inside the dataset extent), a query whose bbox equals
the full dataset extent returns exactly one merged byte range, spanning
offset 0 through total_bytes minus 1 inclusive, that is, the span
[0, total_bytes). -/
theorem C3_full_extent_query (tiles : List (Window × Bbox × ℤ)) (E : Bbox)
    (hne : tiles ≠ [])
    (hpos : ∀ t ∈ tiles, 0 < t.2.2)
    (hbb : ∀ t ∈ tiles, t.2.1.xmin < t.2.1.xmax ∧ t.2.1.ymin < t.2.1.ymax ∧
      E.xmin ≤ t.2.1.xmin ∧ t.2.1.xmax ≤ E.xmax ∧
      E.ymin ≤ t.2.1.ymin ∧ t.2.1.ymax ≤ E.ymax) :
    get_byte_ranges_for_bbox E (encode_spatial_flac_frames tiles)
      = [(0, total_bytes (encode_spatial_flac_frames tiles) - 1)]
    ∧ 0 < total_bytes (encode_spatial_flac_frames tiles) := by
  have hq : query_bbox E (encode_spatial_flac_frames tiles)
      = encode_spatial_flac_frames tiles := by
    rw [query_bbox]
    apply List.filter_eq_self.mpr
    intro f hf
    obtain ⟨t, ht, hfb, _⟩ := encode_loop_mem tiles 0 0 f hf
    obtain ⟨h1, h2, h3, h4, h5, h6⟩ := hbb t ht
    rw [hfb]
    simp only [Bool.and_eq_true, decide_eq_true_eq, gt_iff_lt]
    refine ⟨⟨⟨by linarith, by linarith⟩, by linarith⟩, by linarith⟩
  have hfilter : (encode_spatial_flac_frames tiles).filter
      (fun f => decide (f.byte_size > 0)) = encode_spatial_flac_frames tiles := by
    apply List.filter_eq_self.mpr
    intro f hf
    obtain ⟨t, ht, _, hfs⟩ := encode_loop_mem tiles 0 0 f hf
    have := hpos t ht
    simp only [decide_eq_true_eq, gt_iff_lt]
    omega
  have hsortid : sort_ranges ((encode_spatial_flac_frames tiles).map
      (fun f => (f.byte_offset, f.byte_offset + f.byte_size - 1)))
      = (encode_spatial_flac_frames tiles).map
        (fun f => (f.byte_offset, f.byte_offset + f.byte_size - 1)) := by
    apply List.Sorted.insertionSort_eq
    exact (encode_ranges_pairwise_lt tiles 0 0 hpos).imp (fun hab => Or.inl hab)
  have htot : total_bytes (encode_spatial_flac_frames tiles)
      = (tiles.map (fun t => t.2.2)).sum := by
    rw [total_bytes, encode_spatial_flac_frames, encode_loop_map_size]
  simp only [get_byte_ranges_for_bbox]
  rw [hq, hfilter, hsortid, htot]
  cases tiles with
  | nil => exact absurd rfl hne
  | cons t0 rest =>
    obtain ⟨w0, bb0, sz0⟩ := t0
    have hsz0 : (0 : ℤ) < sz0 := hpos _ (List.mem_cons_self _ _)
    have hpos2 : ∀ t ∈ rest, (0 : ℤ) < t.2.2 :=
      fun t ht => hpos t (List.mem_cons_of_mem _ ht)
    have hsum0 : (0 : ℤ) ≤ (rest.map (fun t => t.2.2)).sum := by
      apply List.sum_nonneg
      intro x hx
      obtain ⟨t, ht, rfl⟩ := List.mem_map.mp hx
      exact (hpos2 t ht).le
    rw [merge_ranges, encode_spatial_flac_frames]
    simp only [encode_loop, List.map_cons, List.foldl_cons]
    have hstep0 : merge_step [] (0, 0 + sz0 - 1) = [(0, sz0 - 1)] := by
      simp [merge_step]
    rw [hstep0, show (0 : ℤ) + sz0 = (sz0 - 1) + 1 by ring,
      merge_cumulative rest (0 + 1) 0 (sz0 - 1) hpos2]
    simp only [List.map_cons, List.sum_cons, List.reverse_singleton]
    constructor
    · congr 2
      ring
    · omega

/-! ## Tile grid planner (spatial_encoder.py, _calculate_tiles) -/

/-- Python range(0, stop, step) for a positive step: the multiples of step
below stop. -/
def py_range (stop step : ℕ) : List ℕ :=
  (List.range ((stop + step - 1) / step)).map (fun m => m * step)

/-- SpatialFLACEncoder._calculate_tiles (spatial_encoder.py lines 92-103) for
a positive tile size: row blocks outer, column blocks inner, each clamped to
the raster boundary; each tuple is (row_start, col_start, height, width). -/
def calculate_tiles_pos (height width tile_size : ℕ) : List (ℕ × ℕ × ℕ × ℕ) :=
  ((py_range height tile_size).map (fun row_start =>
    (py_range width tile_size).map (fun col_start =>
      (row_start, col_start,
        min (row_start + tile_size) height - row_start,
        min (col_start + tile_size) width - col_start)))).flatten

/-- SpatialFLACEncoder._calculate_tiles for an arbitrary integer tile size,
following Python range semantics: a zero step raises ValueError; a negative
step with a nonnegative stop yields an empty range, hence an empty tile
plan. -/
def calculate_tiles (height width : ℕ) (tile_size : ℤ) : Except Unit (List (ℕ × ℕ × ℕ × ℕ)) :=
  if tile_size = 0 then Except.error ()
  else if 0 < tile_size then Except.ok (calculate_tiles_pos height width tile_size.toNat)
  else Except.ok []

theorem ceil_div_eq (n ts : ℕ) (hts : 0 < ts) (hn : 0 < n) :
    (n + ts - 1) / ts = (n - 1) / ts + 1 := by
  rw [show n + ts - 1 = (n - 1) + ts by omega, Nat.add_div_right _ hts]

theorem mul_lt_of_lt_ceil (n ts m : ℕ) (hts : 0 < ts)
    (hm : m < (n + ts - 1) / ts) : m * ts < n := by
  rcases Nat.eq_zero_or_pos n with rfl | hn
  · rw [show 0 + ts - 1 = ts - 1 by omega, Nat.div_eq_of_lt (by omega)] at hm
    exact absurd hm (Nat.not_lt_zero m)
  · rw [ceil_div_eq n ts hts hn] at hm
    have h1 : m ≤ (n - 1) / ts := by omega
    have h2 : m * ts ≤ (n - 1) / ts * ts := Nat.mul_le_mul_right ts h1
    have h3 : (n - 1) / ts * ts ≤ n - 1 := Nat.div_mul_le_self _ _
    exact Nat.lt_of_le_of_lt (Nat.le_trans h2 h3) (by omega)

theorem le_ceil_mul (n ts : ℕ) (hts : 0 < ts) : n ≤ (n + ts - 1) / ts * ts := by
  rcases Nat.eq_zero_or_pos n with rfl | hn
  · simp
  · rw [ceil_div_eq n ts hts hn, Nat.succ_mul]
    have h1 := Nat.div_add_mod (n - 1) ts
    have h2 : (n - 1) % ts < ts := Nat.mod_lt _ hts
    rw [Nat.mul_comm]
    omega

theorem lt_div_mul_add (pos ts : ℕ) (hts : 0 < ts) : pos < pos / ts * ts + ts := by
  have h1 := Nat.div_add_mod pos ts
  have h2 : pos % ts < ts := Nat.mod_lt _ hts
  rw [Nat.mul_comm]
  omega

/-- A clamped block starting at the m-th multiple of the tile size contains a
position exactly when m is the block index of that position. -/
theorem block_contains_iff (n ts pos m : ℕ) (hts : 0 < ts) (hpos : pos < n) :
    (m * ts ≤ pos ∧ pos < m * ts + (min (m * ts + ts) n - m * ts)) ↔ m = pos / ts := by
  constructor
  · rintro ⟨h1, h2⟩
    have h3 : pos < min (m * ts + ts) n := by omega
    have h4 : pos < m * ts + ts := lt_of_lt_of_le h3 (min_le_left _ _)
    exact (Nat.div_eq_of_lt_le h1 (by rw [Nat.succ_mul]; omega)).symm
  · rintro rfl
    have h1 : pos / ts * ts ≤ pos := Nat.div_mul_le_self pos ts
    have h2 : pos < pos / ts * ts + ts := lt_div_mul_add pos ts hts
    refine ⟨h1, ?_⟩
    have h3 : pos < min (pos / ts * ts + ts) n := lt_min h2 hpos
    omega

theorem countP_range_eq_val (k v : ℕ) :
    (List.range k).countP (fun m => decide (m = v)) = if v < k then 1 else 0 := by
  induction k with
  | zero => simp
  | succ k ih =>
    rw [List.range_succ, List.countP_append, ih]
    by_cases hv : v < k
    · rw [if_pos hv, if_pos (by omega)]
      have : k ≠ v := by omega
      simp [this]
    · by_cases hv2 : v = k
      · subst hv2
        rw [if_neg hv, if_pos (by omega)]
        simp
      · rw [if_neg hv, if_neg (by omega)]
        simp only [List.countP_cons, List.countP_nil]
        have : k ≠ v := by omega
        simp [this]

theorem sum_map_ite_range (k v A : ℕ) (hv : v < k) :
    ((List.range k).map (fun m => if m = v then A else 0)).sum = A := by
  induction k with
  | zero => omega
  | succ k ih =>
    rw [List.range_succ, List.map_append, List.sum_append]
    by_cases hvk : v < k
    · rw [ih hvk]
      have : k ≠ v := by omega
      simp [this]
    · have hveq : v = k := by omega
      subst hveq
      have hz : ((List.range v).map (fun m => if m = v then A else 0)).sum = 0 := by
        apply List.sum_eq_zero
        intro x hx
        obtain ⟨m, hm, rfl⟩ := List.mem_map.mp hx
        rw [List.mem_range] at hm
        simp [Nat.ne_of_lt hm]
      rw [hz]
      simp

theorem py_range_size_sum (n ts : ℕ) (hts : 0 < ts) :
    ((py_range n ts).map (fun r => min (r + ts) n - r)).sum = n := by
  rw [py_range, List.map_map]
  suffices h : ∀ j, j ≤ (n + ts - 1) / ts →
      ((List.range j).map (fun m => min (m * ts + ts) n - m * ts)).sum = min (j * ts) n by
    have h2 := h _ (le_refl _)
    rwa [min_eq_right (le_ceil_mul n ts hts)] at h2
  intro j hj
  induction j with
  | zero => simp
  | succ j ih =>
    rw [List.range_succ, List.map_append, List.sum_append, ih (by omega)]
    have hjlt : j * ts < n := mul_lt_of_lt_ceil n ts j hts (by omega)
    simp only [List.map_cons, List.map_nil, List.sum_cons, List.sum_nil]
    rw [Nat.succ_mul]
    generalize j * ts = r at hjlt ⊢
    omega

theorem sum_map_eq_of_congr {a : Type} (l : List a) (f g : a → ℕ)
    (h : ∀ x, x ∈ l → f x = g x) : (l.map f).sum = (l.map g).sum := by
  rw [List.map_congr_left h]

theorem range_size_sum (n ts : ℕ) (hts : 0 < ts) :
    ((List.range ((n + ts - 1) / ts)).map (fun m => min (m * ts + ts) n - m * ts)).sum = n := by
  suffices h : ∀ j, j ≤ (n + ts - 1) / ts →
      ((List.range j).map (fun m => min (m * ts + ts) n - m * ts)).sum = min (j * ts) n by
    have h2 := h _ (le_refl _)
    rwa [min_eq_right (le_ceil_mul n ts hts)] at h2
  intro j hj
  induction j with
  | zero => simp
  | succ j ih =>
    rw [List.range_succ, List.map_append, List.sum_append, ih (by omega)]
    have hjlt : j * ts < n := mul_lt_of_lt_ceil n ts j hts (by omega)
    simp only [List.map_cons, List.map_nil, List.sum_cons, List.sum_nil]
    rw [Nat.succ_mul]
    generalize j * ts = r at hjlt ⊢
    omega

/-- Claim C4: for every positive height, width and tile size, the planned
windows partition the pixel grid exactly: every pixel lies in exactly one
window, the sum of window areas equals height times width, and the windows
are emitted row blocks outer, column blocks inner, strictly increasing in
raster scan order. -/
theorem C4_grid_partition (height width tile_size : ℕ)
    (hh : 0 < height) (hw : 0 < width) (hts : 0 < tile_size) :
    (∀ i j, i < height → j < width →
      (calculate_tiles_pos height width tile_size).countP
        (fun t => decide (t.1 ≤ i ∧ i < t.1 + t.2.2.1 ∧ t.2.1 ≤ j ∧ j < t.2.1 + t.2.2.2))
        = 1)
    ∧ ((calculate_tiles_pos height width tile_size).map
        (fun t => t.2.2.1 * t.2.2.2)).sum = height * width
    ∧ List.Pairwise (fun t1 t2 : ℕ × ℕ × ℕ × ℕ =>
        t1.1 < t2.1 ∨ (t1.1 = t2.1 ∧ t1.2.1 < t2.2.1))
        (calculate_tiles_pos height width tile_size) := by
  refine ⟨?_, ?_, ?_⟩
  · intro i j hi hj
    have hidiv : i / tile_size < (height + tile_size - 1) / tile_size := by
      rw [Nat.div_lt_iff_lt_mul hts]
      exact Nat.lt_of_lt_of_le hi (le_ceil_mul height tile_size hts)
    have hjdiv : j / tile_size < (width + tile_size - 1) / tile_size := by
      rw [Nat.div_lt_iff_lt_mul hts]
      exact Nat.lt_of_lt_of_le hj (le_ceil_mul width tile_size hts)
    rw [calculate_tiles_pos]
    simp only [py_range, List.countP_flatten, List.map_map]
    refine Eq.trans (sum_map_eq_of_congr _ _
      (fun m => if m = i / tile_size then 1 else 0) ?_)
      (sum_map_ite_range _ _ 1 hidiv)
    intro m hm
    simp only [Function.comp]
    rw [List.countP_map]
    have hstep : List.countP
        (fun m2 => decide (m = i / tile_size) && decide (m2 = j / tile_size))
        (List.range ((width + tile_size - 1) / tile_size))
        = if m = i / tile_size then 1 else 0 := by
      by_cases hcase : m = i / tile_size
      · rw [if_pos hcase]
        subst hcase
        have heq : (fun m2 : ℕ => decide (i / tile_size = i / tile_size)
            && decide (m2 = j / tile_size))
            = (fun m2 : ℕ => decide (m2 = j / tile_size)) := by
          funext m2
          simp
        rw [heq, countP_range_eq_val, if_pos hjdiv]
      · rw [if_neg hcase]
        simp [hcase]
    refine Eq.trans ?_ hstep
    apply List.countP_congr
    intro m2 hm2
    show decide (m * tile_size ≤ i ∧
      i < m * tile_size + (min (m * tile_size + tile_size) height - m * tile_size) ∧
      m2 * tile_size ≤ j ∧
      j < m2 * tile_size + (min (m2 * tile_size + tile_size) width - m2 * tile_size)) = true
      ↔ (decide (m = i / tile_size) && decide (m2 = j / tile_size)) = true
    rw [decide_eq_true_eq, Bool.and_eq_true, decide_eq_true_eq, decide_eq_true_eq]
    constructor
    · rintro ⟨h1, h2, h3, h4⟩
      exact ⟨(block_contains_iff height tile_size i m hts hi).mp ⟨h1, h2⟩,
        (block_contains_iff width tile_size j m2 hts hj).mp ⟨h3, h4⟩⟩
    · rintro ⟨hm1, hm2c⟩
      obtain ⟨h1, h2⟩ := (block_contains_iff height tile_size i m hts hi).mpr hm1
      obtain ⟨h3, h4⟩ := (block_contains_iff width tile_size j m2 hts hj).mpr hm2c
      exact ⟨h1, h2, h3, h4⟩
  · rw [calculate_tiles_pos, List.map_flatten, List.sum_flatten]
    simp only [py_range, List.map_map]
    refine Eq.trans (sum_map_eq_of_congr _ _
      (fun m => (min (m * tile_size + tile_size) height - m * tile_size) * width) ?_) ?_
    · intro m hm
      simp only [Function.comp, List.map_map]
      refine Eq.trans (sum_map_eq_of_congr _ _
        (fun m2 => (min (m * tile_size + tile_size) height - m * tile_size) *
          (min (m2 * tile_size + tile_size) width - m2 * tile_size)) ?_) ?_
      · intro m2 hm2
        rfl
      · rw [List.sum_map_mul_left, range_size_sum width tile_size hts]
    · rw [List.sum_map_mul_right, range_size_sum height tile_size hts]
  · rw [calculate_tiles_pos, List.pairwise_flatten]
    constructor
    · intro l hl
      obtain ⟨r, hr, rfl⟩ := List.mem_map.mp hl
      rw [py_range, List.map_map]
      refine List.Pairwise.map _ ?_ (List.pairwise_lt_range _)
      intro a b hab
      right
      exact ⟨rfl, (mul_lt_mul_right hts).mpr hab⟩
    · rw [py_range, py_range, List.map_map]
      refine List.Pairwise.map _ ?_ (List.pairwise_lt_range _)
      intro a b hab x hx y hy
      simp only [Function.comp] at hx hy
      obtain ⟨c1, hc1, rfl⟩ := List.mem_map.mp hx
      obtain ⟨c2, hc2, rfl⟩ := List.mem_map.mp hy
      left
      exact (mul_lt_mul_right hts).mpr hab

/-- Witness for C4 on a 5 by 7 grid with tile size 3, at pixel (4, 6). -/
theorem C4_grid_partition_witness :
    (calculate_tiles_pos 5 7 3).countP
      (fun t => decide (t.1 ≤ 4 ∧ 4 < t.1 + t.2.2.1 ∧ t.2.1 ≤ 6 ∧ 6 < t.2.1 + t.2.2.2)) = 1
    ∧ ((calculate_tiles_pos 5 7 3).map (fun t => t.2.2.1 * t.2.2.2)).sum = 5 * 7 :=
  ⟨(C4_grid_partition 5 7 3 (by decide) (by decide) (by decide)).1 4 6 (by decide) (by decide),
    (C4_grid_partition 5 7 3 (by decide) (by decide) (by decide)).2.1⟩

/-- Claim C9, counterexample: with tile size -5 on a 100 by 100 raster, the
planner silently produces an empty tile plan instead of rejecting the
configuration with an error (Python range(0, 100, -5) is empty). -/
theorem C9_tile_size_validation_cex :
    calculate_tiles 100 100 (-5) = Except.ok [] := by
  rfl

/-- Claim C9 (amended): a non-positive tile size is never rejected up front:
a negative tile size yields an empty tile plan with no error, and only a tile
size of exactly zero raises an error, from the step-zero failure of the range
computation itself (which in the encode path happens only after the raster
has already been read). -/
theorem C9_tile_size_validation_amended (height width : ℕ) (t : ℤ) (ht : t < 0) :
    calculate_tiles height width t = Except.ok []
    ∧ calculate_tiles height width 0 = Except.error () := by
  constructor
  · rw [calculate_tiles, if_neg (by omega), if_neg (by omega)]
  · rw [calculate_tiles, if_pos rfl]

/-- Witness for C9 (amended) at tile size -7 on a 64 by 48 raster. -/
theorem C9_tile_size_validation_amended_witness :
    calculate_tiles 64 48 (-7) = Except.ok []
    ∧ calculate_tiles 64 48 0 = Except.error () :=
  C9_tile_size_validation_amended 64 48 (-7) (by decide)

/-! ## Tile geolocation (spatial_encoder.py, _tile_to_bbox) -/

/-- Rasterio affine transform with coefficients (a, b, c, d, e, f): a pixel
(col, row) maps to (a * col + b * row + c, d * col + e * row + f). -/
structure AffineT where
  a : ℚ
  b : ℚ
  c : ℚ
  d : ℚ
  e : ℚ
  f : ℚ

/-- Application of the affine transform to pixel coordinates, as in
transform * (col, row). -/
def affine_apply (t : AffineT) (col row : ℚ) : ℚ × ℚ :=
  (t.a * col + t.b * row + t.c, t.d * col + t.e * row + t.f)

/-- SpatialFLACEncoder._tile_to_bbox (spatial_encoder.py lines 105-112):
(xmin, ymax) is the image of the upper-left pixel corner of the window and
(xmax, ymin) the image of its lower-right corner. -/
def tile_to_bbox (row_off col_off height width : ℕ) (t : AffineT) : Bbox :=
  let p1 := affine_apply t (col_off : ℚ) (row_off : ℚ)
  let p2 := affine_apply t ((col_off : ℚ) + (width : ℚ)) ((row_off : ℚ) + (height : ℚ))
  ⟨p1.1, p2.2, p2.1, p1.2⟩

/-- Claim C10: for an axis-aligned transform (zero rotation terms, positive
x pixel size, negative y pixel size), the geographic bboxes of planned tiles
align exactly: the xmax of a tile equals the xmin of the tile immediately to its
right (same row block, column offset advanced by the width of this tile), and
the ymin of a tile equals the ymax of the tile immediately below (same column block,
row offset advanced by the height of this tile), so neighbouring tile bboxes meet
with no gap and no overlap. -/
theorem C10_tile_bbox_alignment (t : AffineT)
    (hb : t.b = 0) (hd : t.d = 0) (ha : 0 < t.a) (he : t.e < 0)
    (height width tile_size : ℕ) (t1 t2 t3 : ℕ × ℕ × ℕ × ℕ)
    (ht1 : t1 ∈ calculate_tiles_pos height width tile_size)
    (ht2 : t2 ∈ calculate_tiles_pos height width tile_size)
    (ht3 : t3 ∈ calculate_tiles_pos height width tile_size)
    (hright : t2.1 = t1.1 ∧ t2.2.1 = t1.2.1 + t1.2.2.2)
    (hbelow : t3.2.1 = t1.2.1 ∧ t3.1 = t1.1 + t1.2.2.1) :
    (tile_to_bbox t1.1 t1.2.1 t1.2.2.1 t1.2.2.2 t).xmax
      = (tile_to_bbox t2.1 t2.2.1 t2.2.2.1 t2.2.2.2 t).xmin
    ∧ (tile_to_bbox t1.1 t1.2.1 t1.2.2.1 t1.2.2.2 t).ymin
      = (tile_to_bbox t3.1 t3.2.1 t3.2.2.1 t3.2.2.2 t).ymax := by
  obtain ⟨hr1, hr2⟩ := hright
  obtain ⟨hb1, hb2⟩ := hbelow
  constructor
  · simp only [tile_to_bbox, affine_apply, hb, hd, hr1, hr2]
    push_cast
    ring
  · simp only [tile_to_bbox, affine_apply, hb, hd, hb1, hb2]
    push_cast
    ring

/-- Witness for C10 on a 4 by 4 grid with tile size 2 and the transform
(1, 0, 0, 0, -1, 0). -/
theorem C10_tile_bbox_alignment_witness :
    (tile_to_bbox 0 0 2 2 ⟨1, 0, 0, 0, -1, 0⟩).xmax
      = (tile_to_bbox 0 2 2 2 ⟨1, 0, 0, 0, -1, 0⟩).xmin
    ∧ (tile_to_bbox 0 0 2 2 ⟨1, 0, 0, 0, -1, 0⟩).ymin
      = (tile_to_bbox 2 0 2 2 ⟨1, 0, 0, 0, -1, 0⟩).ymax :=
  C10_tile_bbox_alignment ⟨1, 0, 0, 0, -1, 0⟩ rfl rfl (by norm_num) (by norm_num)
    4 4 2 (0, 0, 2, 2) (0, 2, 2, 2) (2, 0, 2, 2)
    (by decide) (by decide) (by decide) (by decide) (by decide)

/-- Witness for C3 on a two-tile encode covering the extent (0, 0, 2, 1). -/
theorem C3_full_extent_query_witness :
    get_byte_ranges_for_bbox ⟨0, 0, 2, 1⟩ (encode_spatial_flac_frames
        [(⟨0, 0, 2, 2⟩, ⟨0, 0, 1, 1⟩, 3), (⟨2, 0, 2, 2⟩, ⟨1, 0, 2, 1⟩, 4)])
      = [(0, total_bytes (encode_spatial_flac_frames
          [(⟨0, 0, 2, 2⟩, ⟨0, 0, 1, 1⟩, 3), (⟨2, 0, 2, 2⟩, ⟨1, 0, 2, 1⟩, 4)]) - 1)]
    ∧ 0 < total_bytes (encode_spatial_flac_frames
        [(⟨0, 0, 2, 2⟩, ⟨0, 0, 1, 1⟩, 3), (⟨2, 0, 2, 2⟩, ⟨1, 0, 2, 1⟩, 4)]) :=
  C3_full_extent_query _ _ (by decide) (by decide) (by decide)

/-! ## Spatial index loading (spatial_encoder.py, _load_spatial_index) -/

/-- The error kinds relevant to index loading: a fatal index-not-found
condition (FileNotFoundError in the source) as distinct from a transport
error (a failed range request). -/
inductive LoadError where
  | indexNotFound : LoadError
  | transport : LoadError
deriving DecidableEq

/-- The three places an index may be stored, with the I/O abstracted to what
each source yields when read and parsed: the metadata embedded in the FLAC
tag block, the length-prefixed self-framed header, and the sidecar JSON
file. A missing or unparsable source is none. -/
structure IndexSource (α : Type) where
  embedded : Option α
  lengthPrefixed : Option α
  sidecar : Option α

/-- SpatialFLACStreamer._load_spatial_index (spatial_encoder.py lines
385-462): try the embedded FLAC metadata; on any failure fall back directly
to the sidecar JSON file; if that is also missing raise FileNotFoundError.
The length-prefixed framing is never consulted here. -/
def load_spatial_index {α : Type} (src : IndexSource α) : Except LoadError α :=
  match src.embedded with
  | some d => Except.ok d
  | none =>
    match src.sidecar with
    | some d => Except.ok d
    | none => Except.error LoadError.indexNotFound

/-- The reader of cli.py extract_streaming (lines 896-919): it reads only
the length-prefixed self-framing, with no fallback to embedded metadata or
sidecar; a failed range request is a transport error. -/
def extract_streaming_load {α : Type} (src : IndexSource α) : Except LoadError α :=
  match src.lengthPrefixed with
  | some d => Except.ok d
  | none => Except.error LoadError.transport

/-- Modelled from the spec (section 4.4): the three-step fallback chain the
specification mandates, trying embedded metadata, then length-prefixed
framing, then the sidecar, succeeding on the first that parses. -/
def spec_load_chain {α : Type} (src : IndexSource α) : Except LoadError α :=
  match src.embedded with
  | some d => Except.ok d
  | none =>
    match src.lengthPrefixed with
    | some d => Except.ok d
    | none =>
      match src.sidecar with
      | some d => Except.ok d
      | none => Except.error LoadError.indexNotFound

/-- Claim C7, counterexample: on a container whose index is present only in
the length-prefixed framing, the loader of the source raises index-not-found
while the claimed three-step chain succeeds; so loading does not try the
length-prefixed framing between the embedded metadata and the sidecar. -/
theorem C7_load_chain_cex :
    load_spatial_index (⟨none, some 7, none⟩ : IndexSource ℕ)
      = Except.error LoadError.indexNotFound
    ∧ spec_load_chain (⟨none, some 7, none⟩ : IndexSource ℕ) = Except.ok 7 := by
  exact ⟨rfl, rfl⟩

/-- Claim C7 (amended): loading the spatial index tries the embedded
metadata first and then the sidecar JSON file, succeeding on the first that
parses; the length-prefixed framing is not consulted by this loader (only
the separate extract-streaming path reads it, with no fallback); only when
both embedded and sidecar fail does loading raise the fatal index-not-found
error, which is distinct from a transport error and which this loader is the
only one to raise. -/
theorem C7_load_chain_amended (src : IndexSource ℕ) :
    (∀ d, src.embedded = some d → load_spatial_index src = Except.ok d)
    ∧ (src.embedded = none → ∀ d, src.sidecar = some d →
        load_spatial_index src = Except.ok d)
    ∧ (load_spatial_index src = Except.error LoadError.indexNotFound
        ↔ src.embedded = none ∧ src.sidecar = none)
    ∧ load_spatial_index src ≠ Except.error LoadError.transport
    ∧ (∀ x, load_spatial_index { src with lengthPrefixed := x } = load_spatial_index src)
    ∧ (∀ d, src.lengthPrefixed = some d → extract_streaming_load src = Except.ok d) := by
  obtain ⟨emb, lp, sc⟩ := src
  refine ⟨?_, ?_, ?_, ?_, ?_, ?_⟩
  · intro d hd
    simp only at hd
    subst hd
    rfl
  · intro he d hd
    simp only at he hd
    subst he
    subst hd
    rfl
  · cases emb <;> cases sc <;> simp [load_spatial_index]
  · cases emb <;> cases sc <;> simp [load_spatial_index]
  · intro x
    rfl
  · intro d hd
    simp only at hd
    subst hd
    rfl

/-- Witness for C7 (amended): a container with only embedded metadata loads
from it. -/
theorem C7_load_chain_amended_witness :
    load_spatial_index (⟨some 3, none, none⟩ : IndexSource ℕ) = Except.ok 3 :=
  (C7_load_chain_amended ⟨some 3, none, none⟩).1 3 rfl

/-- Claim C8, counterexample: a degenerate query box (xmin equal xmax and
ymin equal ymax, collapsed to the point (5, 5)) strictly inside the single
bbox (0, 0, 10, 10) of the single tile intersects that tile, so the query returns one
frame and one byte range instead of the claimed zero tiles and empty list. -/
theorem C8_degenerate_bbox_cex :
    (query_bbox ⟨5, 5, 5, 5⟩
      [⟨0, ⟨0, 0, 10, 10⟩, ⟨0, 0, 10, 10⟩, 0, 5⟩]).length = 1
    ∧ get_byte_ranges_for_bbox ⟨5, 5, 5, 5⟩
      [⟨0, ⟨0, 0, 10, 10⟩, ⟨0, 0, 10, 10⟩, 0, 5⟩] = [(0, 4)] := by
  constructor
  · rfl
  · rfl

/-- Claim C8 (amended): degenerate and inverted query boxes are not
validated and never raise an error; they are fed to the same strict
intersection test, which a box strictly inside a tile still passes. A
degenerate box collapsed to the point (x, y) yields zero intersecting tiles
exactly when the open bbox of no tile strictly contains the point, and whenever
the intersection set is empty the returned byte range list is empty. -/
theorem C8_degenerate_bbox_amended (frames : List SpatialFrame) (x y : ℚ) :
    (query_bbox ⟨x, y, x, y⟩ frames = []
      ↔ ∀ f ∈ frames, ¬(f.bbox.xmin < x ∧ x < f.bbox.xmax ∧
          f.bbox.ymin < y ∧ y < f.bbox.ymax))
    ∧ (query_bbox ⟨x, y, x, y⟩ frames = [] →
        get_byte_ranges_for_bbox ⟨x, y, x, y⟩ frames = []) := by
  constructor
  · rw [query_bbox, List.filter_eq_nil_iff]
    constructor
    · intro h f hf
      have h2 := h f hf
      simp only [Bool.and_eq_true, decide_eq_true_eq, gt_iff_lt] at h2
      tauto
    · intro h f hf
      have h2 := h f hf
      simp only [Bool.and_eq_true, decide_eq_true_eq, gt_iff_lt]
      tauto
  · intro hq
    simp only [get_byte_ranges_for_bbox]
    rw [hq]
    rfl

/-- Witness for C8 (amended): the point box (20, 20) on no tile. -/
theorem C8_degenerate_bbox_amended_witness :
    query_bbox ⟨20, 20, 20, 20⟩
      [⟨0, ⟨0, 0, 10, 10⟩, ⟨0, 0, 10, 10⟩, 0, 5⟩] = [] :=
  (C8_degenerate_bbox_amended [⟨0, ⟨0, 0, 10, 10⟩, ⟨0, 0, 10, 10⟩, 0, 5⟩] 20 20).1.mpr
    (by decide)

end FlacRaster
